import Mathlib

/-!
Verification of the calamari `mon_remote.py` agent core.

This file gives a shallow embedding, in Lean 4, of the parts of
`calamari_common/remote/mon_remote.py` that the frozen claims are about:

* the `pg_summary` reduction (dicts are embedded as association lists in
  insertion order, mirroring CPython dict content);
* the digest-based version tokens of `get_cluster_object`
  (`md5` / `msgpack.packb` are embedded as an abstract digest function;
  the serialization of a dict is modelled as depending only on the
  key-to-value mapping, via an explicit canonicalisation);
* `rados_commands` batch execution (librados `json_command`,
  `transform_crushmap` and `cluster_status` are oracles supplied through a
  world record, with exceptions as `Except.error`);
* the OSD-metadata loop of `get_cluster_object` for the `osd_map` type;
* `run_job` / `run_job_thread` / `MonRemote.run_job_sync` dispatch
  (external collaborator calls are oracles returning `Except`);
* the `MsgGenerator` event bus: `_emit` fan-out, the job table with
  `run_job` / `complete` / `running_jobs` (the `uuid4` job id is embedded
  as a fresh counter, per the spec's "opaque unique token");
* `MonRemote.listen` interest counting and `MonRemote.run_job` through the
  weak reference to the process-wide generator.
-/

namespace Calamari

/-! ### Association-list embedding of Python dicts

Python dict access/update used in `pg_summary`: a missing key is created,
an existing key is updated in place; new keys append at the end (insertion
order).  `lookupA` is dict lookup. -/

def lookupA {σ β : Type} [DecidableEq σ] : List (σ × β) → σ → Option β
  | [], _ => none
  | p :: ps, k => if p.1 = k then some p.2 else lookupA ps k

/-- Python `try: stats[k] += 1 except KeyError: stats[k] = 1`. -/
def bump {σ : Type} [DecidableEq σ] : List (σ × Nat) → σ → List (σ × Nat)
  | [], k => [(k, 1)]
  | p :: ps, k => if p.1 = k then (p.1, p.2 + 1) :: ps else p :: bump ps k

/-- The nested pattern of `pg_summary`: get-or-create the inner dict for
key `k`, then bump state `st` inside it. -/
def bumpN {σ : Type} [DecidableEq σ] :
    List (σ × List (String × Nat)) → σ → String → List (σ × List (String × Nat))
  | [], k, st => [(k, bump [] st)]
  | p :: ps, k, st => if p.1 = k then (p.1, bump p.2 st) :: ps else p :: bumpN ps k st

/-- The count recorded for key `k` (0 when the key is absent). -/
def cnt {σ : Type} [DecidableEq σ] (m : List (σ × Nat)) (k : σ) : Nat :=
  (lookupA m k).getD 0

/-- The count recorded for `(k, st)` in a nested counter dict. -/
def cnt2 {σ : Type} [DecidableEq σ]
    (m : List (σ × List (String × Nat))) (k : σ) (st : String) : Nat :=
  match lookupA m k with
  | none => 0
  | some inner => cnt inner st

theorem lookupA_bump {σ : Type} [DecidableEq σ] (m : List (σ × Nat)) (k k' : σ) :
    lookupA (bump m k) k' =
      if k' = k then some ((lookupA m k).getD 0 + 1) else lookupA m k' := by
  induction m with
  | nil =>
    by_cases h : k' = k
    · subst h
      simp [bump, lookupA]
    · simp [bump, lookupA, h, Ne.symm h]
  | cons p ps ih =>
    by_cases hpk : p.1 = k
    · subst hpk
      by_cases h : k' = p.1
      · subst h
        simp [bump, lookupA]
      · simp [bump, lookupA, h, Ne.symm h]
    · by_cases hp : p.1 = k'
      · have hk : ¬ k' = k := fun hh => hpk (hp.trans hh)
        simp [bump, lookupA, hpk, hp, hk]
      · simp [bump, lookupA, hpk, hp, ih]

theorem cnt_bump {σ : Type} [DecidableEq σ] (m : List (σ × Nat)) (k k' : σ) :
    cnt (bump m k) k' = cnt m k' + (if k' = k then 1 else 0) := by
  by_cases h : k' = k <;> simp [cnt, lookupA_bump, h]

theorem lookupA_bumpN {σ : Type} [DecidableEq σ]
    (m : List (σ × List (String × Nat))) (k k' : σ) (st : String) :
    lookupA (bumpN m k st) k' =
      if k' = k then some (bump ((lookupA m k).getD []) st) else lookupA m k' := by
  induction m with
  | nil =>
    by_cases h : k' = k
    · subst h
      simp [bumpN, lookupA]
    · simp [bumpN, lookupA, h, Ne.symm h]
  | cons p ps ih =>
    by_cases hpk : p.1 = k
    · subst hpk
      by_cases h : k' = p.1
      · subst h
        simp [bumpN, lookupA]
      · simp [bumpN, lookupA, h, Ne.symm h]
    · by_cases hp : p.1 = k'
      · have hk : ¬ k' = k := fun hh => hpk (hp.trans hh)
        simp [bumpN, lookupA, hpk, hp, hk]
      · simp [bumpN, lookupA, hpk, hp, ih]

theorem cnt_of_lookup_none {σ : Type} [DecidableEq σ]
    (m : List (σ × Nat)) (k : σ) (h : lookupA m k = none) : cnt m k = 0 := by
  simp [cnt, h]

theorem cnt2_bumpN {σ : Type} [DecidableEq σ]
    (m : List (σ × List (String × Nat))) (k k' : σ) (st st' : String) :
    cnt2 (bumpN m k st) k' st' =
      cnt2 m k' st' + (if k' = k ∧ st' = st then 1 else 0) := by
  by_cases hk : k' = k
  · subst hk
    cases h : lookupA m k' with
    | none =>
      by_cases hst : st' = st
      · subst hst
        simp [cnt2, lookupA_bumpN, h, cnt_bump, cnt, lookupA]
      · simp [cnt2, lookupA_bumpN, h, cnt_bump, cnt, lookupA, hst, Ne.symm hst]
    | some inner => simp [cnt2, lookupA_bumpN, h, cnt_bump]
  · simp [cnt2, lookupA_bumpN, hk]

/-! ### `pg_summary` (mon_remote.py lines 174-217)

A brief PG record carries the fields the function reads: `pg['acting']`
(list of OSD ids), `pg['pgid']` (a composite id such as "3.a") and
`pg['state']`. -/

structure PGRecord where
  acting : List Nat
  pgid : String
  state : String
deriving DecidableEq, Repr

structure PGSummaryOut where
  by_osd : List (Nat × List (String × Nat))
  by_pool : List (Nat × List (String × Nat))
  all : List (String × Nat)
deriving DecidableEq, Repr

/-- The characters of `pgid` before the first '.', as Python's
`pgid.split(chr(46))[0]` yields them. -/
def takeUntilDot : List Char → List Char
  | [] => []
  | c :: cs => if c = '.' then [] else c :: takeUntilDot cs

def digitsVal (cs : List Char) : Nat :=
  cs.foldl (fun n c => n * 10 + (c.toNat - 48)) 0

/-- Python `int(pgid.split(chr(46))[0])`: the prefix of `pgid` before the
first dot must be a non-empty digit string, else `int` raises
`ValueError` (modelled as `none`). -/
def parsePool (pgid : String) : Option Nat :=
  let cs := takeUntilDot pgid.data
  if cs ≠ [] ∧ cs.all (fun c => c.isDigit) then some (digitsVal cs) else none

/-- The body of the `for pg in pgs_brief` loop: bump the per-OSD dict for
every member of `pg['acting']`, then the per-pool dict, then the global
dict.  A `ValueError` from `int()` propagates as `Except.error`. -/
def pgStep (s : PGSummaryOut) (pg : PGRecord) : Except String PGSummaryOut :=
  let osds := pg.acting.foldl (fun mm o => bumpN mm o pg.state) s.by_osd
  match parsePool pg.pgid with
  | none => Except.error ("ValueError: invalid literal for int: " ++ pg.pgid)
  | some pool =>
      Except.ok ⟨osds, bumpN s.by_pool pool pg.state, bump s.all pg.state⟩

def pgFold (s : PGSummaryOut) : List PGRecord → Except String PGSummaryOut
  | [] => Except.ok s
  | pg :: rest =>
      match pgStep s pg with
      | Except.error e => Except.error e
      | Except.ok s1 => pgFold s1 rest

/-- Source `pg_summary(pgs_brief)`: starts from three empty dicts and folds the
records in order, returning the dict with keys by_osd / by_pool / all. -/
def pg_summary (pgs_brief : List PGRecord) : Except String PGSummaryOut :=
  pgFold ⟨[], [], []⟩ pgs_brief

theorem cnt2_foldl_bumpN (acting : List Nat) (m : List (Nat × List (String × Nat)))
    (st : String) (o : Nat) (st' : String) :
    cnt2 (acting.foldl (fun mm x => bumpN mm x st) m) o st' =
      cnt2 m o st' + (if st' = st then acting.count o else 0) := by
  induction acting generalizing m with
  | nil => simp
  | cons a as ih =>
    simp only [List.foldl_cons, ih, cnt2_bumpN, List.count_cons]
    by_cases hst : st' = st
    · by_cases ho : o = a
      · simp [hst, ho]
        omega
      · have : ¬ (a == o) = true := by simpa using fun hh => ho hh.symm
        simp [hst, ho, this]
    · simp [hst]

theorem pgFold_counts (recs : List PGRecord) :
    ∀ s out, pgFold s recs = Except.ok out →
      (∀ st, cnt out.all st = cnt s.all st + recs.countP (fun r => r.state == st)) ∧
      (∀ o st, cnt2 out.by_osd o st =
        cnt2 s.by_osd o st +
          (recs.map (fun r => if r.state = st then r.acting.count o else 0)).sum) ∧
      (∀ p st, cnt2 out.by_pool p st =
        cnt2 s.by_pool p st +
          recs.countP (fun r => (parsePool r.pgid == some p) && (r.state == st))) := by
  induction recs with
  | nil =>
    intro s out h
    simp [pgFold] at h
    subst h
    simp
  | cons pg rest ih =>
    intro s out h
    simp only [pgFold, pgStep] at h
    cases hp : parsePool pg.pgid with
    | none => simp [hp] at h
    | some pool =>
      simp only [hp] at h
      set s1 : PGSummaryOut :=
        ⟨pg.acting.foldl (fun mm o => bumpN mm o pg.state) s.by_osd,
         bumpN s.by_pool pool pg.state, bump s.all pg.state⟩ with hs1
      have h1 := ih s1 out h
      refine ⟨?_, ?_, ?_⟩
      · intro st
        rw [h1.1 st]
        simp only [hs1, cnt_bump, List.countP_cons]
        by_cases hst : st = pg.state
        · subst hst
          simp
          omega
        · have : ¬ (pg.state == st) = true := by simpa using fun hh => hst hh.symm
          simp [hst, this]
      · intro o st
        rw [h1.2.1 o st]
        simp only [hs1, cnt2_foldl_bumpN, List.map_cons, List.sum_cons]
        by_cases hst : st = pg.state
        · subst hst
          simp
          omega
        · simp [hst, Ne.symm hst]
      · intro p st
        rw [h1.2.2 p st]
        simp only [hs1, cnt2_bumpN, List.countP_cons]
        by_cases hpp : p = pool
        · by_cases hst : st = pg.state
          · simp [hpp, hst, hp]
            omega
          · have : ¬ (pg.state == st) = true := by simpa using fun hh => hst hh.symm
            simp [hpp, hst, this]
        · have : ¬ (parsePool pg.pgid == some p) = true := by
            simp [hp]
            exact fun hh => hpp hh.symm
          simp [hpp, this]

/-- Claim C8: `pg_summary` applied to the single-record input
`[acting := [1,2], pgid := "3.a", state := "active+clean"]` returns
`by_osd = (1 and 2 each mapping "active+clean" to 1)`,
`by_pool = (3 mapping "active+clean" to 1)`, `all = ("active+clean" to 1)`;
and in general, for every input record it increments the
per-OSD-per-state, per-pool-per-state (pool parsed as the integer prefix
of pgid before the first dot) and global-per-state counters in a single
pass: each final counter equals the number of increments the records
demand of it. -/
theorem C8_pg_summary_counts :
    (pg_summary [⟨[1, 2], "3.a", "active+clean"⟩] =
      Except.ok ⟨[(1, [("active+clean", 1)]), (2, [("active+clean", 1)])],
                 [(3, [("active+clean", 1)])], [("active+clean", 1)]⟩) ∧
    (∀ recs out, pg_summary recs = Except.ok out →
      (∀ st, cnt out.all st = recs.countP (fun r => r.state == st)) ∧
      (∀ o st, cnt2 out.by_osd o st =
        (recs.map (fun r => if r.state = st then r.acting.count o else 0)).sum) ∧
      (∀ p st, cnt2 out.by_pool p st =
        recs.countP (fun r => (parsePool r.pgid == some p) && (r.state == st)))) := by
  constructor
  · rfl
  · intro recs out h
    have hc := pgFold_counts recs ⟨[], [], []⟩ out h
    refine ⟨fun st => ?_, fun o st => ?_, fun p st => ?_⟩
    · simpa [cnt, lookupA] using hc.1 st
    · simpa [cnt2, lookupA] using hc.2.1 o st
    · simpa [cnt2, lookupA] using hc.2.2 p st

theorem C8_pg_summary_counts_witness :
    cnt [("active+clean", 1)] "active+clean" =
      List.countP (fun r => r.state == "active+clean")
        [(⟨[1, 2], "3.a", "active+clean"⟩ : PGRecord)] := by
  have h := (C8_pg_summary_counts).2 [⟨[1, 2], "3.a", "active+clean"⟩]
      ⟨[(1, [("active+clean", 1)]), (2, [("active+clean", 1)])],
       [(3, [("active+clean", 1)])], [("active+clean", 1)]⟩ rfl
  exact h.1 "active+clean"

/-! ### Canonical serialization of dicts (for `md5(msgpack.packb(...))`)

`msgpack.packb` of a Python dict depends only on the key-to-value mapping
of the dict (CPython 2 iterates a dict in an order determined by its key
set), not on insertion history; we model this by canonicalising the
association lists with a key sort before applying an abstract digest. -/

/-- Boolean lexicographic order on strings as character lists. -/
def lexLe : List Char → List Char → Bool
  | [], _ => true
  | _ :: _, [] => false
  | a :: as, b :: bs => if a < b then true else if b < a then false else lexLe as bs


theorem lexLe_cons_self (a : Char) (as bs : List Char) :
    lexLe (a :: as) (a :: bs) = lexLe as bs := by
  simp [lexLe]

theorem lexLe_cons_lt {a b : Char} (h : a < b) (as bs : List Char) :
    lexLe (a :: as) (b :: bs) = true := by
  simp [lexLe, h]

theorem lexLe_cons_gt {a b : Char} (h : b < a) (as bs : List Char) :
    lexLe (a :: as) (b :: bs) = false := by
  simp [lexLe, h, asymm h]

theorem lexLe_total (x y : List Char) : lexLe x y = true ∨ lexLe y x = true := by
  induction x generalizing y with
  | nil => exact Or.inl rfl
  | cons a as ih =>
    cases y with
    | nil => exact Or.inr rfl
    | cons b bs =>
      by_cases hab : a < b
      · exact Or.inl (lexLe_cons_lt hab as bs)
      · by_cases hba : b < a
        · exact Or.inr (lexLe_cons_lt hba bs as)
        · have hh : a = b := le_antisymm (not_lt.mp hba) (not_lt.mp hab)
          subst hh
          rcases ih bs with hc | hc
          · exact Or.inl ((lexLe_cons_self a as bs).trans hc)
          · exact Or.inr ((lexLe_cons_self a bs as).trans hc)

theorem lexLe_antisymm (x y : List Char) (hxy : lexLe x y = true)
    (hyx : lexLe y x = true) : x = y := by
  induction x generalizing y with
  | nil =>
    cases y with
    | nil => rfl
    | cons b bs => simp [lexLe] at hyx
  | cons a as ih =>
    cases y with
    | nil => simp [lexLe] at hxy
    | cons b bs =>
      by_cases hab : a < b
      · rw [lexLe_cons_gt hab bs as] at hyx
        exact absurd hyx (by simp)
      · by_cases hba : b < a
        · rw [lexLe_cons_gt hba as bs] at hxy
          exact absurd hxy (by simp)
        · have hh : a = b := le_antisymm (not_lt.mp hba) (not_lt.mp hab)
          subst hh
          rw [lexLe_cons_self a as bs] at hxy
          rw [lexLe_cons_self a bs as] at hyx
          rw [ih bs hxy hyx]

theorem lexLe_trans (x y z : List Char) (hxy : lexLe x y = true)
    (hyz : lexLe y z = true) : lexLe x z = true := by
  induction x generalizing y z with
  | nil => rfl
  | cons a as ih =>
    cases y with
    | nil => simp [lexLe] at hxy
    | cons b bs =>
      cases z with
      | nil => simp [lexLe] at hyz
      | cons c cs =>
        by_cases hab : a < b
        · by_cases hbc : b < c
          · exact lexLe_cons_lt (lt_trans hab hbc) as cs
          · by_cases hcb : c < b
            · rw [lexLe_cons_gt hcb bs cs] at hyz
              exact absurd hyz (by simp)
            · have hh : b = c := le_antisymm (not_lt.mp hcb) (not_lt.mp hbc)
              subst hh
              exact lexLe_cons_lt hab as cs
        · by_cases hba : b < a
          · rw [lexLe_cons_gt hba as bs] at hxy
            exact absurd hxy (by simp)
          · have hh : a = b := le_antisymm (not_lt.mp hba) (not_lt.mp hab)
            subst hh
            rw [lexLe_cons_self a as bs] at hxy
            by_cases hac : a < c
            · exact lexLe_cons_lt hac as cs
            · by_cases hca : c < a
              · rw [lexLe_cons_gt hca bs cs] at hyz
                exact absurd hyz (by simp)
              · have hh2 : a = c := le_antisymm (not_lt.mp hca) (not_lt.mp hac)
                subst hh2
                rw [lexLe_cons_self a bs cs] at hyz
                rw [lexLe_cons_self a as cs]
                exact ih bs cs hxy hyz

/-- Order on strings used to canonicalise state-keyed dicts. -/
def strLe (a b : String) : Prop := lexLe a.data b.data = true

instance instDecidableStrLe (a b : String) : Decidable (strLe a b) :=
  inferInstanceAs (Decidable (lexLe a.data b.data = true))

theorem strLe_antisymm (a b : String) (h1 : strLe a b) (h2 : strLe b a) : a = b := by
  cases a with
  | mk da =>
    cases b with
    | mk db =>
      have hh : da = db := lexLe_antisymm da db h1 h2
      rw [hh]

theorem lookupA_some_mem {σ β : Type} [DecidableEq σ] (m : List (σ × β)) (k : σ) (v : β)
    (h : lookupA m k = some v) : (k, v) ∈ m := by
  induction m with
  | nil => simp [lookupA] at h
  | cons u us ih =>
    by_cases hu : u.1 = k
    · simp only [lookupA, if_pos hu] at h
      have hv : u.2 = v := by
        injection h
      obtain ⟨u1, u2⟩ := u
      simp only at hu hv
      rw [← hu, ← hv]
      exact List.mem_cons_self _ _
    · simp only [lookupA, if_neg hu] at h
      exact List.mem_cons_of_mem _ (ih h)

theorem lookupA_none_iff {σ β : Type} [DecidableEq σ] (m : List (σ × β)) (k : σ) :
    lookupA m k = none ↔ k ∉ m.map Prod.fst := by
  induction m with
  | nil => simp [lookupA]
  | cons u us ih =>
    by_cases hu : u.1 = k
    · simp [lookupA, hu]
    · simp only [lookupA, if_neg hu, List.map_cons, List.mem_cons]
      rw [ih]
      constructor
      · intro h hh
        rcases hh with hh | hh
        · exact hu hh.symm
        · exact h hh
      · intro h hh
        exact h (Or.inr hh)

theorem mem_lookupA {σ β : Type} [DecidableEq σ] (m : List (σ × β)) (k : σ) (v : β)
    (hnd : (m.map Prod.fst).Nodup) (h : (k, v) ∈ m) : lookupA m k = some v := by
  induction m with
  | nil => simp at h
  | cons u us ih =>
    rcases List.mem_cons.mp h with hh | hh
    · rw [← hh]
      simp [lookupA]
    · have hk : k ∈ us.map Prod.fst :=
        List.mem_map.mpr ⟨(k, v), hh, rfl⟩
      have hu : ¬ u.1 = k := by
        intro he
        have := (List.nodup_cons.mp hnd).1
        rw [he] at this
        exact this hk
      simp only [lookupA, if_neg hu]
      exact ih (List.nodup_cons.mp hnd).2 hh

/-- Lookup in an association list depends only on its multiset of entries,
provided keys are unique. -/
theorem lookupA_eq_of_perm {σ β : Type} [DecidableEq σ] (m₁ m₂ : List (σ × β))
    (hp : m₁.Perm m₂) (hnd : (m₁.map Prod.fst).Nodup) (k : σ) :
    lookupA m₁ k = lookupA m₂ k := by
  have hnd2 : (m₂.map Prod.fst).Nodup := (hp.map Prod.fst).nodup hnd
  cases hc : lookupA m₁ k with
  | none =>
    have hk : k ∉ m₁.map Prod.fst := (lookupA_none_iff m₁ k).mp hc
    have hk2 : k ∉ m₂.map Prod.fst := fun hh =>
      hk ((hp.map Prod.fst).mem_iff.mpr hh)
    exact ((lookupA_none_iff m₂ k).mpr hk2).symm
  | some v =>
    have hm : (k, v) ∈ m₂ := hp.mem_iff.mp (lookupA_some_mem m₁ k v hc)
    exact (mem_lookupA m₂ k v hnd2 hm).symm

/-- Generic extensionality for association lists sorted strictly by key:
equal lookups force equal lists. -/
theorem sortedAssocExt {σ β : Type} [DecidableEq σ] (lt : σ → σ → Prop)
    (hasym : ∀ a b, lt a b → lt b a → False) :
    ∀ (m₁ m₂ : List (σ × β)),
      m₁.Pairwise (fun p q => lt p.1 q.1) →
      m₂.Pairwise (fun p q => lt p.1 q.1) →
      (∀ k, lookupA m₁ k = lookupA m₂ k) → m₁ = m₂ := by
  intro m₁
  induction m₁ with
  | nil =>
    intro m₂ _ _ hl
    cases m₂ with
    | nil => rfl
    | cons q t2 =>
      have hq := hl q.1
      simp [lookupA] at hq
  | cons p t ih =>
    intro m₂ h₁ h₂ hl
    cases m₂ with
    | nil =>
      have hq := hl p.1
      simp [lookupA] at hq
    | cons q t2 =>
      have hmem₁ : ∀ k v, lookupA t k = some v → lt p.1 k := fun k v hv =>
        (List.pairwise_cons.mp h₁).1 (k, v) (lookupA_some_mem t k v hv)
      have hmem₂ : ∀ k v, lookupA t2 k = some v → lt q.1 k := fun k v hv =>
        (List.pairwise_cons.mp h₂).1 (k, v) (lookupA_some_mem t2 k v hv)
      have hpq : p.1 = q.1 := by
        by_contra hne
        have ha : lookupA t2 p.1 = some p.2 := by
          have h0 := hl p.1
          simp only [lookupA, if_pos rfl] at h0
          rw [if_neg (fun hh : q.1 = p.1 => hne hh.symm)] at h0
          exact h0.symm
        have hb : lookupA t q.1 = some q.2 := by
          have h0 := hl q.1
          simp only [lookupA, if_pos rfl] at h0
          rw [if_neg hne] at h0
          exact h0
        exact hasym p.1 q.1 (hmem₁ q.1 q.2 hb) (hmem₂ p.1 p.2 ha)
      have hv : p.2 = q.2 := by
        have h0 := hl p.1
        simp only [lookupA, if_pos rfl, if_pos hpq.symm] at h0
        injection h0
      have htail : ∀ k, lookupA t k = lookupA t2 k := by
        intro k
        by_cases hk : p.1 = k
        · subst hk
          cases hc1 : lookupA t p.1 with
          | none =>
            cases hc2 : lookupA t2 p.1 with
            | none => rfl
            | some w =>
              have hlt : lt q.1 p.1 := hmem₂ p.1 w hc2
              rw [← hpq] at hlt
              exact absurd hlt (fun hh => hasym p.1 p.1 hh hh)
          | some w =>
            exact absurd (hmem₁ p.1 w hc1) (fun hh => hasym p.1 p.1 hh hh)
        · have h0 := hl k
          simp only [lookupA, if_neg hk,
            if_neg (fun hh : q.1 = k => hk (hpq.trans hh))] at h0
          exact h0
      have htt : t = t2 :=
        ih t2 (List.pairwise_cons.mp h₁).2 (List.pairwise_cons.mp h₂).2 htail
      obtain ⟨p1, p2⟩ := p
      obtain ⟨q1, q2⟩ := q
      simp only at hpq hv
      rw [hpq, hv, htt]

/-- Canonical form of a state-count dict: entries sorted by key. -/
def canonCnt (m : List (String × Nat)) : List (String × Nat) :=
  List.insertionSort (fun p q => strLe p.1 q.1) m

/-- Canonical form of a nested dict keyed by integers (osd / pool ids). -/
def canonN (m : List (Nat × List (String × Nat))) : List (Nat × List (String × Nat)) :=
  List.insertionSort (fun p q => p.1 ≤ q.1) (m.map (fun p => (p.1, canonCnt p.2)))

/-- Canonical form of a `pg_summary` result: the mapping content of its
three dicts, independent of insertion order. -/
def canonSummary (s : PGSummaryOut) : PGSummaryOut :=
  ⟨canonN s.by_osd, canonN s.by_pool, canonCnt s.all⟩

theorem canonCnt_sorted (m : List (String × Nat)) :
    (canonCnt m).Pairwise (fun p q => strLe p.1 q.1) := by
  haveI : IsTotal (String × Nat) (fun p q => strLe p.1 q.1) :=
    ⟨fun a b => lexLe_total a.1.data b.1.data⟩
  haveI : IsTrans (String × Nat) (fun p q => strLe p.1 q.1) :=
    ⟨fun a b c => lexLe_trans a.1.data b.1.data c.1.data⟩
  exact List.sorted_insertionSort _ m

theorem canonCnt_perm (m : List (String × Nat)) : (canonCnt m).Perm m :=
  List.perm_insertionSort _ m

theorem canonCnt_keys_nodup (m : List (String × Nat))
    (h : (m.map Prod.fst).Nodup) : ((canonCnt m).map Prod.fst).Nodup :=
  (((canonCnt_perm m).map Prod.fst).symm).nodup h

theorem canonCnt_pairwise_strict (m : List (String × Nat))
    (h : (m.map Prod.fst).Nodup) :
    (canonCnt m).Pairwise (fun p q => strLe p.1 q.1 ∧ p.1 ≠ q.1) := by
  have h3 : (canonCnt m).Pairwise (fun p q => p.1 ≠ q.1) :=
    List.pairwise_map.mp (canonCnt_keys_nodup m h)
  exact (canonCnt_sorted m).and h3

theorem lookupA_canonCnt (m : List (String × Nat))
    (h : (m.map Prod.fst).Nodup) (k : String) :
    lookupA (canonCnt m) k = lookupA m k :=
  lookupA_eq_of_perm (canonCnt m) m (canonCnt_perm m) (canonCnt_keys_nodup m h) k

theorem lookupA_map_value {σ β γ : Type} [DecidableEq σ]
    (m : List (σ × β)) (f : β → γ) (k : σ) :
    lookupA (m.map (fun p => (p.1, f p.2))) k = (lookupA m k).map f := by
  induction m with
  | nil => simp [lookupA]
  | cons u us ih =>
    by_cases hu : u.1 = k
    · simp [lookupA, hu]
    · simp [lookupA, hu, ih]

theorem keys_map_value {σ β γ : Type} (m : List (σ × β)) (f : β → γ) :
    ((m.map (fun p => (p.1, f p.2))).map Prod.fst) = m.map Prod.fst := by
  induction m with
  | nil => rfl
  | cons u us ih => simp only [List.map_cons, ih]

theorem canonN_perm (m : List (Nat × List (String × Nat))) :
    (canonN m).Perm (m.map (fun p => (p.1, canonCnt p.2))) :=
  List.perm_insertionSort _ _

theorem canonN_keys_nodup (m : List (Nat × List (String × Nat)))
    (h : (m.map Prod.fst).Nodup) : ((canonN m).map Prod.fst).Nodup := by
  have h2 : ((m.map (fun p => (p.1, canonCnt p.2))).map Prod.fst).Nodup := by
    rw [keys_map_value]
    exact h
  exact (((canonN_perm m).map Prod.fst).symm).nodup h2

theorem canonN_pairwise_strict (m : List (Nat × List (String × Nat)))
    (h : (m.map Prod.fst).Nodup) :
    (canonN m).Pairwise (fun p q => p.1 ≤ q.1 ∧ p.1 ≠ q.1) := by
  haveI : IsTotal (Nat × List (String × Nat)) (fun p q => p.1 ≤ q.1) :=
    ⟨fun a b => Nat.le_total a.1 b.1⟩
  haveI : IsTrans (Nat × List (String × Nat)) (fun p q => p.1 ≤ q.1) :=
    ⟨fun a b c hab hbc => le_trans hab hbc⟩
  have h1 : (canonN m).Pairwise (fun p q => p.1 ≤ q.1) :=
    List.sorted_insertionSort _ _
  have h3 : (canonN m).Pairwise (fun p q => p.1 ≠ q.1) :=
    List.pairwise_map.mp (canonN_keys_nodup m h)
  exact h1.and h3

theorem lookupA_canonN (m : List (Nat × List (String × Nat)))
    (h : (m.map Prod.fst).Nodup) (k : Nat) :
    lookupA (canonN m) k = (lookupA m k).map canonCnt := by
  have h2 : ((m.map (fun p => (p.1, canonCnt p.2))).map Prod.fst).Nodup := by
    rw [keys_map_value]
    exact h
  have e1 := lookupA_eq_of_perm (canonN m) (m.map (fun p => (p.1, canonCnt p.2)))
    (canonN_perm m) (canonN_keys_nodup m h) k
  rw [e1, lookupA_map_value]

/-- Well-formedness of a counter dict: unique keys, positive counts. -/
def WFc {σ : Type} (m : List (σ × Nat)) : Prop :=
  (m.map Prod.fst).Nodup ∧ ∀ p ∈ m, 0 < p.2

/-- Well-formedness of a nested counter dict: unique keys, and every inner
dict well-formed and non-empty. -/
def WFn {σ : Type} (m : List (σ × List (String × Nat))) : Prop :=
  (m.map Prod.fst).Nodup ∧ ∀ p ∈ m, WFc p.2 ∧ p.2 ≠ []

theorem mem_keys_bump {σ : Type} [DecidableEq σ] (m : List (σ × Nat)) (k x : σ) :
    x ∈ (bump m k).map Prod.fst ↔ x ∈ m.map Prod.fst ∨ x = k := by
  induction m with
  | nil => simp [bump]
  | cons u us ih =>
    by_cases hu : u.1 = k
    · simp [bump, hu]
      tauto
    · simp [bump, hu, ih]
      tauto

theorem bump_WFc {σ : Type} [DecidableEq σ] (m : List (σ × Nat)) (k : σ)
    (h : WFc m) : WFc (bump m k) := by
  induction m with
  | nil =>
    constructor
    · simp [bump]
    · intro p hp
      simp [bump] at hp
      rw [hp]
      exact Nat.one_pos
  | cons u us ih =>
    obtain ⟨hnd, hpos⟩ := h
    rw [List.map_cons, List.nodup_cons] at hnd
    by_cases hu : u.1 = k
    · constructor
      · simp only [bump, if_pos hu, List.map_cons, List.nodup_cons]
        exact hnd
      · intro p hp
        simp only [bump, if_pos hu] at hp
        rcases List.mem_cons.mp hp with hh | hh
        · rw [hh]
          exact Nat.succ_pos _
        · exact hpos p (List.mem_cons_of_mem _ hh)
    · have ihh := ih ⟨hnd.2, fun p hp => hpos p (List.mem_cons_of_mem _ hp)⟩
      constructor
      · simp only [bump, if_neg hu, List.map_cons, List.nodup_cons]
        refine ⟨fun hmem => ?_, ihh.1⟩
        rcases (mem_keys_bump us k u.1).mp hmem with hh | hh
        · exact hnd.1 hh
        · exact hu hh
      · intro p hp
        simp only [bump, if_neg hu] at hp
        rcases List.mem_cons.mp hp with hh | hh
        · rw [hh]
          exact hpos u (List.mem_cons_self _ _)
        · exact ihh.2 p hh

theorem bump_ne_nil {σ : Type} [DecidableEq σ] (m : List (σ × Nat)) (k : σ) :
    bump m k ≠ [] := by
  cases m with
  | nil => simp [bump]
  | cons u us =>
    by_cases hu : u.1 = k <;> simp [bump, hu]

theorem mem_keys_bumpN {σ : Type} [DecidableEq σ]
    (m : List (σ × List (String × Nat))) (k x : σ) (st : String) :
    x ∈ (bumpN m k st).map Prod.fst ↔ x ∈ m.map Prod.fst ∨ x = k := by
  induction m with
  | nil => simp [bumpN]
  | cons u us ih =>
    by_cases hu : u.1 = k
    · simp [bumpN, hu]
      tauto
    · simp [bumpN, hu, ih]
      tauto

theorem bumpN_WFn {σ : Type} [DecidableEq σ]
    (m : List (σ × List (String × Nat))) (k : σ) (st : String)
    (h : WFn m) : WFn (bumpN m k st) := by
  induction m with
  | nil =>
    constructor
    · simp [bumpN]
    · intro p hp
      simp [bumpN] at hp
      rw [hp]
      exact ⟨bump_WFc [] st ⟨List.nodup_nil, by simp⟩, bump_ne_nil [] st⟩
  | cons u us ih =>
    obtain ⟨hnd, hwf⟩ := h
    rw [List.map_cons, List.nodup_cons] at hnd
    by_cases hu : u.1 = k
    · constructor
      · simp only [bumpN, if_pos hu, List.map_cons, List.nodup_cons]
        exact hnd
      · intro p hp
        simp only [bumpN, if_pos hu] at hp
        rcases List.mem_cons.mp hp with hh | hh
        · rw [hh]
          have hu2 := hwf u (List.mem_cons_self _ _)
          exact ⟨bump_WFc u.2 st hu2.1, bump_ne_nil u.2 st⟩
        · exact hwf p (List.mem_cons_of_mem _ hh)
    · have ihh := ih ⟨hnd.2, fun p hp => hwf p (List.mem_cons_of_mem _ hp)⟩
      constructor
      · simp only [bumpN, if_neg hu, List.map_cons, List.nodup_cons]
        refine ⟨fun hmem => ?_, ihh.1⟩
        rcases (mem_keys_bumpN us k u.1 st).mp hmem with hh | hh
        · exact hnd.1 hh
        · exact hu hh
      · intro p hp
        simp only [bumpN, if_neg hu] at hp
        rcases List.mem_cons.mp hp with hh | hh
        · rw [hh]
          exact hwf u (List.mem_cons_self _ _)
        · exact ihh.2 p hh

theorem foldl_bumpN_WFn (acting : List Nat) (st : String)
    (m : List (Nat × List (String × Nat))) (h : WFn m) :
    WFn (acting.foldl (fun mm o => bumpN mm o st) m) := by
  induction acting generalizing m with
  | nil => exact h
  | cons a as ih =>
    simp only [List.foldl_cons]
    exact ih _ (bumpN_WFn m a st h)

/-- Well-formedness of a whole summary value. -/
def WFs (s : PGSummaryOut) : Prop :=
  WFn s.by_osd ∧ WFn s.by_pool ∧ WFc s.all

theorem pgFold_WFs (recs : List PGRecord) :
    ∀ s out, WFs s → pgFold s recs = Except.ok out → WFs out := by
  induction recs with
  | nil =>
    intro s out hs h
    simp [pgFold] at h
    rw [← h]
    exact hs
  | cons pg rest ih =>
    intro s out hs h
    simp only [pgFold, pgStep] at h
    cases hp : parsePool pg.pgid with
    | none => simp [hp] at h
    | some pool =>
      simp only [hp] at h
      exact ih _ out
        ⟨foldl_bumpN_WFn pg.acting pg.state s.by_osd hs.1,
         bumpN_WFn s.by_pool pool pg.state hs.2.1,
         bump_WFc s.all pg.state hs.2.2⟩ h

theorem pg_summary_WFs (recs : List PGRecord) (out : PGSummaryOut)
    (h : pg_summary recs = Except.ok out) : WFs out :=
  pgFold_WFs recs ⟨[], [], []⟩ out
    ⟨⟨List.nodup_nil, by simp⟩, ⟨List.nodup_nil, by simp⟩, ⟨List.nodup_nil, by simp⟩⟩ h

theorem lookup_eq_of_cnt_eq {σ : Type} [DecidableEq σ] (m₁ m₂ : List (σ × Nat))
    (h₁ : WFc m₁) (h₂ : WFc m₂) (h : ∀ k, cnt m₁ k = cnt m₂ k) (k : σ) :
    lookupA m₁ k = lookupA m₂ k := by
  have hk := h k
  cases hc1 : lookupA m₁ k with
  | none =>
    cases hc2 : lookupA m₂ k with
    | none => rfl
    | some v =>
      have hv : 0 < v := h₂.2 (k, v) (lookupA_some_mem m₂ k v hc2)
      rw [cnt, cnt, hc1, hc2] at hk
      simp at hk
      omega
  | some v =>
    cases hc2 : lookupA m₂ k with
    | none =>
      have hv : 0 < v := h₁.2 (k, v) (lookupA_some_mem m₁ k v hc1)
      rw [cnt, cnt, hc1, hc2] at hk
      simp at hk
      omega
    | some w =>
      rw [cnt, cnt, hc1, hc2] at hk
      simp at hk
      rw [hk]

theorem canonCnt_eq_of_cnt_eq (m₁ m₂ : List (String × Nat))
    (h₁ : WFc m₁) (h₂ : WFc m₂) (h : ∀ k, cnt m₁ k = cnt m₂ k) :
    canonCnt m₁ = canonCnt m₂ := by
  refine sortedAssocExt (fun a b => strLe a b ∧ a ≠ b) ?_ (canonCnt m₁) (canonCnt m₂)
    (canonCnt_pairwise_strict m₁ h₁.1) (canonCnt_pairwise_strict m₂ h₂.1) ?_
  · intro a b ha hb
    exact ha.2 (strLe_antisymm a b ha.1 hb.1)
  · intro k
    rw [lookupA_canonCnt m₁ h₁.1 k, lookupA_canonCnt m₂ h₂.1 k]
    exact lookup_eq_of_cnt_eq m₁ m₂ h₁ h₂ h k

theorem cnt2_pos_of_lookup_some (m : List (Nat × List (String × Nat)))
    (h : WFn m) (k : Nat) (inner : List (String × Nat))
    (hc : lookupA m k = some inner) : ∃ st, 0 < cnt2 m k st := by
  have hmem := lookupA_some_mem m k inner hc
  have hwf := h.2 (k, inner) hmem
  cases hi : inner with
  | nil => exact absurd hi hwf.2
  | cons p rest =>
    refine ⟨p.1, ?_⟩
    have hl : lookupA inner p.1 = some p.2 := by
      rw [hi]
      simp [lookupA]
    have hp : 0 < p.2 := hwf.1.2 p (hi ▸ List.mem_cons_self _ _)
    simp only [cnt2, hc, cnt, hl, Option.getD_some]
    exact hp

theorem canonN_eq_of_cnt2_eq (m₁ m₂ : List (Nat × List (String × Nat)))
    (h₁ : WFn m₁) (h₂ : WFn m₂) (h : ∀ k st, cnt2 m₁ k st = cnt2 m₂ k st) :
    canonN m₁ = canonN m₂ := by
  refine sortedAssocExt (fun a b => a ≤ b ∧ a ≠ b) ?_ (canonN m₁) (canonN m₂)
    (canonN_pairwise_strict m₁ h₁.1) (canonN_pairwise_strict m₂ h₂.1) ?_
  · intro a b ha hb
    exact ha.2 (le_antisymm ha.1 hb.1)
  · intro k
    rw [lookupA_canonN m₁ h₁.1 k, lookupA_canonN m₂ h₂.1 k]
    cases hc1 : lookupA m₁ k with
    | none =>
      cases hc2 : lookupA m₂ k with
      | none => rfl
      | some i2 =>
        obtain ⟨st, hpos⟩ := cnt2_pos_of_lookup_some m₂ h₂ k i2 hc2
        have hz : cnt2 m₁ k st = 0 := by
          simp only [cnt2, hc1]
        rw [← h k st] at hpos
        omega
    | some i1 =>
      cases hc2 : lookupA m₂ k with
      | none =>
        obtain ⟨st, hpos⟩ := cnt2_pos_of_lookup_some m₁ h₁ k i1 hc1
        have hz : cnt2 m₂ k st = 0 := by
          simp only [cnt2, hc2]
        rw [h k st] at hpos
        omega
      | some i2 =>
        have hw1 := (h₁.2 (k, i1) (lookupA_some_mem m₁ k i1 hc1)).1
        have hw2 := (h₂.2 (k, i2) (lookupA_some_mem m₂ k i2 hc2)).1
        have hcc : ∀ st, cnt i1 st = cnt i2 st := by
          intro st
          have := h k st
          simp only [cnt2, hc1, hc2] at this
          exact this
        have hcan := canonCnt_eq_of_cnt_eq i1 i2 hw1 hw2 hcc
        simp [hcan]

theorem cnt_canonCnt (m : List (String × Nat))
    (h : (m.map Prod.fst).Nodup) (k : String) : cnt (canonCnt m) k = cnt m k := by
  rw [cnt, cnt, lookupA_canonCnt m h k]

theorem cnt2_canonN (m : List (Nat × List (String × Nat)))
    (h : WFn m) (k : Nat) (st : String) : cnt2 (canonN m) k st = cnt2 m k st := by
  cases hc : lookupA m k with
  | none => simp [cnt2, lookupA_canonN m h.1 k, hc]
  | some inner =>
    simp only [cnt2, lookupA_canonN m h.1 k, hc, Option.map]
    exact cnt_canonCnt inner (h.2 (k, inner) (lookupA_some_mem m k inner hc)).1.1 st

theorem pgFold_ok_iff (recs : List PGRecord) :
    ∀ s, (∃ out, pgFold s recs = Except.ok out) ↔
      ∀ r ∈ recs, parsePool r.pgid ≠ none := by
  induction recs with
  | nil =>
    intro s
    simp [pgFold]
  | cons pg rest ih =>
    intro s
    simp only [pgFold, pgStep]
    cases hp : parsePool pg.pgid with
    | none =>
      simp [hp]
    | some pool =>
      simp only [hp]
      constructor
      · intro hout r hr
        rcases List.mem_cons.mp hr with hh | hh
        · rw [hh, hp]
          simp
        · exact (ih _).mp hout r hh
      · intro hall
        exact (ih _).mpr (fun r hr => hall r (List.mem_cons_of_mem _ hr))

theorem pg_summary_counts (recs : List PGRecord) (out : PGSummaryOut)
    (h : pg_summary recs = Except.ok out) :
    (∀ st, cnt out.all st = recs.countP (fun r => r.state == st)) ∧
    (∀ o st, cnt2 out.by_osd o st =
      (recs.map (fun r => if r.state = st then r.acting.count o else 0)).sum) ∧
    (∀ p st, cnt2 out.by_pool p st =
      recs.countP (fun r => (parsePool r.pgid == some p) && (r.state == st))) := by
  have hc := pgFold_counts recs ⟨[], [], []⟩ out h
  refine ⟨fun st => ?_, fun o st => ?_, fun p st => ?_⟩
  · simpa [cnt, lookupA] using hc.1 st
  · simpa [cnt2, lookupA] using hc.2.1 o st
  · simpa [cnt2, lookupA] using hc.2.2 p st

theorem canonSummary_eq_of_counts (s₁ s₂ : PGSummaryOut)
    (h₁ : WFs s₁) (h₂ : WFs s₂)
    (hall : ∀ st, cnt s₁.all st = cnt s₂.all st)
    (hosd : ∀ o st, cnt2 s₁.by_osd o st = cnt2 s₂.by_osd o st)
    (hpool : ∀ p st, cnt2 s₁.by_pool p st = cnt2 s₂.by_pool p st) :
    canonSummary s₁ = canonSummary s₂ := by
  unfold canonSummary
  rw [canonN_eq_of_cnt2_eq _ _ h₁.1 h₂.1 hosd,
    canonN_eq_of_cnt2_eq _ _ h₁.2.1 h₂.2.1 hpool,
    canonCnt_eq_of_cnt_eq _ _ h₁.2.2 h₂.2.2 hall]

theorem counts_eq_of_canonSummary_eq (s₁ s₂ : PGSummaryOut)
    (h₁ : WFs s₁) (h₂ : WFs s₂) (h : canonSummary s₁ = canonSummary s₂) :
    (∀ st, cnt s₁.all st = cnt s₂.all st) ∧
    (∀ o st, cnt2 s₁.by_osd o st = cnt2 s₂.by_osd o st) ∧
    (∀ p st, cnt2 s₁.by_pool p st = cnt2 s₂.by_pool p st) := by
  have hosd := congrArg PGSummaryOut.by_osd h
  have hpool := congrArg PGSummaryOut.by_pool h
  have hall := congrArg PGSummaryOut.all h
  simp only [canonSummary] at hosd hpool hall
  refine ⟨fun st => ?_, fun o st => ?_, fun p st => ?_⟩
  · rw [← cnt_canonCnt s₁.all h₁.2.2.1 st, ← cnt_canonCnt s₂.all h₂.2.2.1 st, hall]
  · rw [← cnt2_canonN s₁.by_osd h₁.1 o st, ← cnt2_canonN s₂.by_osd h₂.1 o st, hosd]
  · rw [← cnt2_canonN s₁.by_pool h₁.2.1 p st, ← cnt2_canonN s₂.by_pool h₂.2.1 p st, hpool]

/-! ### Version tokens of `get_cluster_object` (mon_remote.py lines 422-446)

The version function table at lines 428-436 gives
`pg_summary -> md5(msgpack.packb(d))` where `d` is the *reduced* summary
(`data = pg_summary(json.loads(raw)); version = version_fn(data, raw)`),
`health -> md5(r)` over the raw payload text, and (line 424-425)
`config -> md5(raw)` over the raw config text.  `md5 . packb` is modelled
as an abstract digest applied to the canonical (mapping-determined) form
of the summary; `md5` on text as an abstract digest on strings. -/

def pgSummaryVersion (digest : PGSummaryOut → String)
    (records : List PGRecord) : Except String String :=
  match pg_summary records with
  | Except.error e => Except.error e
  | Except.ok d => Except.ok (digest (canonSummary d))

def configVersion (digest : String → String) (raw : String) : String :=
  digest raw

def healthVersion (digest : String → String) (raw : String) : String :=
  digest raw

/-- Claim C9, as stated, is false for the config (and health) token: the
code digests the *raw serialized text* (`version = md5(raw)`), so
re-serializing the same mapping with its keys in the other order — raw
text "a=1;b=2" versus "b=2;a=1" — changes the token under any injective
digest (witnessed by the identity digest). -/
theorem C9_counterexample_config :
    configVersion id "a=1;b=2" ≠ configVersion id "b=2;a=1" := by
  decide

/-- Claim C9 (amended): the `pg_summary` token is computed from the
reduced summary rather than the raw dump, so it is unchanged under any
reordering of the raw PG records, and (for a collision-free digest) it
changes under any change of the reduced counts.  The `config` and
`health` tokens are digests of the raw serialized payload text: they are
stable only under byte-identical re-serialization, and change whenever
the raw text changes — in particular under re-serialization with
reordered keys. -/
theorem C9_version_tokens :
    (∀ (digest : PGSummaryOut → String) (r₁ r₂ : List PGRecord) (s₁ : PGSummaryOut),
      pg_summary r₁ = Except.ok s₁ → r₁.Perm r₂ →
      ∃ s₂, pg_summary r₂ = Except.ok s₂ ∧
        pgSummaryVersion digest r₁ = pgSummaryVersion digest r₂) ∧
    (∀ (digest : PGSummaryOut → String) (r₁ r₂ : List PGRecord)
        (s₁ s₂ : PGSummaryOut),
      Function.Injective digest →
      pg_summary r₁ = Except.ok s₁ → pg_summary r₂ = Except.ok s₂ →
      ((∃ st, cnt s₁.all st ≠ cnt s₂.all st) ∨
       (∃ o st, cnt2 s₁.by_osd o st ≠ cnt2 s₂.by_osd o st) ∨
       (∃ p st, cnt2 s₁.by_pool p st ≠ cnt2 s₂.by_pool p st)) →
      pgSummaryVersion digest r₁ ≠ pgSummaryVersion digest r₂) ∧
    (∀ (digest : String → String) (raw : String),
      configVersion digest raw = digest raw ∧
      healthVersion digest raw = digest raw) ∧
    (∀ (digest : String → String) (raw₁ raw₂ : String),
      Function.Injective digest → raw₁ ≠ raw₂ →
      configVersion digest raw₁ ≠ configVersion digest raw₂) := by
  refine ⟨?_, ?_, ?_, ?_⟩
  · intro digest r₁ r₂ s₁ h1 hperm
    have hok : ∀ r ∈ r₂, parsePool r.pgid ≠ none := by
      intro r hr
      exact (pgFold_ok_iff r₁ ⟨[], [], []⟩).mp ⟨s₁, h1⟩ r (hperm.mem_iff.mpr hr)
    obtain ⟨s₂, h2⟩ := (pgFold_ok_iff r₂ ⟨[], [], []⟩).mpr hok
    have h2 : pg_summary r₂ = Except.ok s₂ := h2
    refine ⟨s₂, h2, ?_⟩
    have hc1 := pg_summary_counts r₁ s₁ h1
    have hc2 := pg_summary_counts r₂ s₂ h2
    have hcan : canonSummary s₁ = canonSummary s₂ := by
      refine canonSummary_eq_of_counts s₁ s₂
        (pg_summary_WFs r₁ s₁ h1) (pg_summary_WFs r₂ s₂ h2)
        (fun st => ?_) (fun o st => ?_) (fun p st => ?_)
      · rw [hc1.1 st, hc2.1 st]
        exact hperm.countP_eq _
      · rw [hc1.2.1 o st, hc2.2.1 o st]
        exact (hperm.map _).sum_eq
      · rw [hc1.2.2 p st, hc2.2.2 p st]
        exact hperm.countP_eq _
    simp only [pgSummaryVersion, h1, h2, hcan]
  · intro digest r₁ r₂ s₁ s₂ hinj h1 h2 hdiff hveq
    simp only [pgSummaryVersion, h1, h2, Except.ok.injEq] at hveq
    have hcan := hinj hveq
    have hcounts := counts_eq_of_canonSummary_eq s₁ s₂
      (pg_summary_WFs r₁ s₁ h1) (pg_summary_WFs r₂ s₂ h2) hcan
    rcases hdiff with ⟨st, hd⟩ | ⟨o, st, hd⟩ | ⟨p, st, hd⟩
    · exact hd (hcounts.1 st)
    · exact hd (hcounts.2.1 o st)
    · exact hd (hcounts.2.2 p st)
  · intro digest raw
    exact ⟨rfl, rfl⟩
  · intro digest raw₁ raw₂ hinj hne hveq
    exact hne (hinj hveq)

def pgRecA : PGRecord := ⟨[1], "1.a", "clean"⟩

def pgRecB : PGRecord := ⟨[2], "2.b", "active"⟩

theorem C9_version_tokens_witness :
    (∃ s₂, pg_summary [pgRecB, pgRecA] = Except.ok s₂ ∧
      pgSummaryVersion (fun _ => "d") [pgRecA, pgRecB] =
        pgSummaryVersion (fun _ => "d") [pgRecB, pgRecA]) ∧
    configVersion id "x" ≠ configVersion id "y" := by
  constructor
  · exact (C9_version_tokens).1 (fun _ => "d") [pgRecA, pgRecB] [pgRecB, pgRecA]
      ⟨[(1, [("clean", 1)]), (2, [("active", 1)])],
       [(1, [("clean", 1)]), (2, [("active", 1)])],
       [("clean", 1), ("active", 1)]⟩ rfl (List.Perm.swap pgRecB pgRecA [])
  · exact (C9_version_tokens).2.2.2 id "x" "y" Function.injective_id (by decide)

/-! ### Event kinds and the `MsgGenerator` fan-out (mon_remote.py 700-790) -/

/-- Constants `HEARTBEAT = 0`, `JOB = 1`, `SERVER_HEARTBEAT = 2`, `RUNNING_JOBS = 3`. -/
inductive MsgKind where
  | heartbeat
  | job
  | serverHeartbeat
  | runningJobs
deriving DecidableEq, Repr

/-- A registered `MonRemote` instance as `_emit` sees it: its `subscribed`
interest count (a Python int) and its `_events` queue contents. -/
structure SubscriberInst (E : Type) where
  subscribed : Int
  events : List E
deriving DecidableEq, Repr

/-- Source `MonRemote.put(msg_event)`: non-blocking enqueue at the tail of the
unbounded gevent queue. -/
def putEvent {E : Type} (i : SubscriberInst E) (ev : E) : SubscriberInst E :=
  ⟨i.subscribed, i.events ++ [ev]⟩

/-- Source `MsgGenerator._emit(msg_event)` (lines 787-790): for each instance in
`self._instances`, `if instance.subscribed > 0: instance.put(msg_event)`.
A total function: it cannot block and cannot drop the event for an
interested subscriber. -/
def emitMsg {E : Type} (instances : List (SubscriberInst E)) (ev : E) :
    List (SubscriberInst E) :=
  instances.map (fun i => if i.subscribed > 0 then putEvent i ev else i)

/-- Claim C1: `_emit` enqueues the event exactly once, at the tail of the
inbox, for every registered subscriber with interest count strictly
positive, and enqueues nothing for a subscriber whose interest count is
zero (or negative); no subscriber is added or removed, no interest count
changes, the enqueue is a total function of the registry (never blocks,
never drops). -/
theorem C1_emit_fanout {E : Type} (instances : List (SubscriberInst E)) (ev : E) :
    (emitMsg instances ev).length = instances.length ∧
    ∀ (k : Nat), k < instances.length →
      ∃ i j, instances[k]? = some i ∧ (emitMsg instances ev)[k]? = some j ∧
        j.subscribed = i.subscribed ∧
        j.events = (if i.subscribed > 0 then i.events ++ [ev] else i.events) := by
  refine ⟨by simp [emitMsg], ?_⟩
  intro k hk
  have h1 : instances[k]? = some instances[k] := List.getElem?_eq_getElem hk
  refine ⟨instances[k],
    if instances[k].subscribed > 0 then putEvent instances[k] ev else instances[k],
    h1, ?_, ?_, ?_⟩
  · rw [emitMsg, List.getElem?_map, h1]
    rfl
  · by_cases hs : instances[k].subscribed > 0 <;> simp [hs, putEvent]
  · by_cases hs : instances[k].subscribed > 0 <;> simp [hs, putEvent]

theorem C1_emit_fanout_witness :
    (emitMsg [(⟨1, []⟩ : SubscriberInst Nat), ⟨0, [5]⟩] 7).length = 2 ∧
    (∃ i j, [(⟨1, []⟩ : SubscriberInst Nat), ⟨0, [5]⟩][0]? = some i ∧
      (emitMsg [(⟨1, []⟩ : SubscriberInst Nat), ⟨0, [5]⟩] 7)[0]? = some j ∧
      j.subscribed = i.subscribed ∧
      j.events = (if i.subscribed > 0 then i.events ++ [7] else i.events)) ∧
    (∃ i j, [(⟨1, []⟩ : SubscriberInst Nat), ⟨0, [5]⟩][1]? = some i ∧
      (emitMsg [(⟨1, []⟩ : SubscriberInst Nat), ⟨0, [5]⟩] 7)[1]? = some j ∧
      j.subscribed = i.subscribed ∧
      j.events = (if i.subscribed > 0 then i.events ++ [7] else i.events)) :=
  ⟨(C1_emit_fanout [⟨1, []⟩, ⟨0, [5]⟩] 7).1,
   (C1_emit_fanout [⟨1, []⟩, ⟨0, [5]⟩] 7).2 0 (by decide),
   (C1_emit_fanout [⟨1, []⟩, ⟨0, [5]⟩] 7).2 1 (by decide)⟩

/-! ### `run_job` dispatch and the job thread (mon_remote.py 712-760)

The external collaborator calls (`get_cluster_object`, `rados_commands`,
`ceph_command`, `rbd_command`, `cluster_stats`, `pool_stats`) and the
Python subscript accesses on `args` are oracles in a world record; an
exception raised by a collaborator is `Except.error` with its message. -/

structure JobWorld (J : Type) where
  fieldArg : J → String → J
  idxArg : J → Nat → J
  get_cluster_object : J → J → J → Except String J
  rados_commandsW : J → J → J → Except String J
  ceph_commandW : J → Except String J
  rbd_commandW : J → Except String J
  cluster_statsW : J → Except String J
  pool_statsW : J → J → Except String J

/-- Source `run_job(cmd, args)` (lines 712-740): dispatch on the command name;
an unknown name raises (in Python 2, `raise NotImplemented(cmd)` raises a
`TypeError` because `NotImplemented` is not callable — still an
exception). -/
def run_job {J : Type} (w : JobWorld J) (cmd : String) (args : J) : Except String J :=
  if cmd = "ceph.get_cluster_object" then
    w.get_cluster_object (w.fieldArg args "cluster_name")
      (w.fieldArg args "sync_type") (w.fieldArg args "since")
  else if cmd = "ceph.rados_commands" then
    w.rados_commandsW (w.fieldArg args "fsid") (w.fieldArg args "cluster_name")
      (w.fieldArg args "commands")
  else if cmd = "ceph.ceph_command" then w.ceph_commandW (w.idxArg args 1)
  else if cmd = "ceph.rbd_command" then w.rbd_commandW (w.idxArg args 0)
  else if cmd = "ceph.cluster_stats" then w.cluster_statsW (w.idxArg args 0)
  else if cmd = "ceph.pool_stats" then w.pool_statsW (w.idxArg args 0) (w.idxArg args 1)
  else Except.error ("TypeError: NotImplementedType is not callable: " ++ cmd)

/-- The payload of the JOB event built by `run_job_thread`: keys `id`,
`jid`, `success`, `return` (the value, or the formatted traceback text on
failure), `fun` (named `fn` here) and `fun_args`. -/
structure JobEventData (J : Type) where
  id : String
  jid : String
  success : Bool
  ret : Sum String J
  fn : String
  fn_args : J
deriving DecidableEq, Repr

/-- Source `run_job_thread(generator, jid, cmd, args)` (lines 743-760): runs
`run_job` under a bare `except:`; on any exception it sets
`success = False` and puts the captured traceback text in place of the
return value, then wraps everything in a JOB `MsgEvent`.  It is a total
function: no exception of the dispatched call propagates. -/
def run_job_thread {J : Type} (w : JobWorld J) (fqdn jid cmd : String) (args : J) :
    MsgKind × JobEventData J :=
  match run_job w cmd args with
  | Except.ok v => (MsgKind.job, ⟨fqdn, jid, true, Sum.inr v, cmd, args⟩)
  | Except.error e => (MsgKind.job, ⟨fqdn, jid, false, Sum.inl e, cmd, args⟩)

/-- Claim C2: for every command name and arguments, the asynchronous job
execution path never propagates an exception: if the dispatched call
raises, the produced JOB event has `success = false` and the captured
message text in place of the return value; if it returns, the event has
`success = true` and the returned value. -/
theorem C2_run_job_thread_captures {J : Type} (w : JobWorld J)
    (fqdn jid cmd : String) (args : J) :
    (∀ e, run_job w cmd args = Except.error e →
      run_job_thread w fqdn jid cmd args =
        (MsgKind.job, ⟨fqdn, jid, false, Sum.inl e, cmd, args⟩)) ∧
    (∀ v, run_job w cmd args = Except.ok v →
      run_job_thread w fqdn jid cmd args =
        (MsgKind.job, ⟨fqdn, jid, true, Sum.inr v, cmd, args⟩)) := by
  constructor <;> intro x hx <;> simp [run_job_thread, hx]

/-- A world in which every collaborator call raises. -/
def jwEx : JobWorld String :=
  ⟨fun a _ => a, fun a _ => a,
   fun _ _ _ => Except.error "boom", fun _ _ _ => Except.error "boom",
   fun _ => Except.error "boom", fun _ => Except.error "boom",
   fun _ => Except.error "boom", fun _ _ => Except.error "boom"⟩

/-- A world in which every collaborator call returns its first argument. -/
def jwOk : JobWorld String :=
  ⟨fun a _ => a, fun a _ => a,
   fun x _ _ => Except.ok x, fun x _ _ => Except.ok x,
   fun x => Except.ok x, fun x => Except.ok x,
   fun x => Except.ok x, fun x _ => Except.ok x⟩

theorem C2_run_job_thread_captures_witness :
    run_job_thread jwEx "host" "j1" "ceph.cluster_stats" "a" =
      (MsgKind.job, ⟨"host", "j1", false, Sum.inl "boom", "ceph.cluster_stats", "a"⟩) :=
  (C2_run_job_thread_captures jwEx "host" "j1" "ceph.cluster_stats" "a").1 "boom" rfl

/-- Exception `Unavailable` from `calamari_common.remote.base`. -/
inductive RemoteError where
  | unavailable (cmd : String)
deriving DecidableEq, Repr

/-- Source `MonRemote.run_job_sync(fqdn, cmd, args)` (lines 856-864): returns
`run_job(cmd, args)`, and under a bare `except:` re-raises any failure as
`Unavailable(cmd)`. -/
def run_job_sync {J : Type} (w : JobWorld J) (fqdn cmd : String) (args : J) :
    Except RemoteError J :=
  match run_job w cmd args with
  | Except.ok v => Except.ok v
  | Except.error _ => Except.error (RemoteError.unavailable cmd)

/-- Claim C6, as stated, is false: when the dispatched call fails,
`run_job_sync` raises `Unavailable(cmd)` to the caller — it does not
return a JobResult with `success = false`.  Concretely, with a world
whose `cluster_stats` collaborator raises, the call surfaces a raised
error. -/
theorem C6_counterexample_run_job_sync :
    run_job_sync jwEx "host" "ceph.cluster_stats" "a" =
      Except.error (RemoteError.unavailable "ceph.cluster_stats") := rfl

/-- Claim C6 (amended): `MonRemote.run_job_sync` returns the dispatched
call's value unchanged on success, and converts any failure of the
dispatched call into a raised `Unavailable(cmd)` exception; the failure
is never returned as a `success = false` result. -/
theorem C6_run_job_sync_raises {J : Type} (w : JobWorld J)
    (fqdn cmd : String) (args : J) :
    (∀ v, run_job w cmd args = Except.ok v →
      run_job_sync w fqdn cmd args = Except.ok v) ∧
    (∀ e, run_job w cmd args = Except.error e →
      run_job_sync w fqdn cmd args = Except.error (RemoteError.unavailable cmd)) := by
  constructor <;> intro x hx <;> simp [run_job_sync, hx]

theorem C6_run_job_sync_raises_witness :
    run_job_sync jwOk "h" "ceph.cluster_stats" "a" = Except.ok "a" ∧
    run_job_sync jwEx "h" "ceph.pool_stats" "a" =
      Except.error (RemoteError.unavailable "ceph.pool_stats") :=
  ⟨(C6_run_job_sync_raises jwOk "h" "ceph.cluster_stats" "a").1 "a" rfl,
   (C6_run_job_sync_raises jwEx "h" "ceph.pool_stats" "a").2 "boom" rfl⟩

/-! ### `rados_commands` batch execution (mon_remote.py 286-338)

The librados session is threaded as an abstract state `S`; `json_command`
(with and without `inbuf`), `transform_crushmap(.., set)` and
`cluster_status(..)[versions]` are oracles in a world record.  `A` is the
type of Python argdicts, `J` of decoded JSON values.  An exception is
`Except.error` with its message (the `RuntimeError(outs)` of a failed
crushmap compile, a `ValueError` of `json.loads`, a `rados.Error` inside
`cluster_status`). -/

structure RadosWorld (S A J : Type) where
  setFormat : A → A
  getData : A → String
  json_command : S → String → A → ((Int × String × String) × S)
  json_command_inbuf : S → String → String → ((Int × String × String) × S)
  transform_crushmap_set : S → String → ((Int × String × String) × S)
  cluster_versions : S → Except String (J × S)
  loads : String → Except String J

/-- One iteration of the command loop up to the status test: set
`argdict[format] = json`; for `osd setcrushmap` first compile the map
text (`ret != 0` raises `RuntimeError(outs)`) and resubmit with `inbuf`,
otherwise plain `json_command`. -/
def execOne {S A J : Type} (w : RadosWorld S A J) (s : S) (c : String × A) :
    Except String ((Int × String × String) × S) :=
  let argdict := w.setFormat c.2
  if c.1 = "osd setcrushmap" then
    match w.transform_crushmap_set s (w.getData argdict) with
    | ((ret, stdout, outs), s1) =>
      if ret ≠ 0 then Except.error outs
      else Except.ok (w.json_command_inbuf s1 c.1 stdout)
  else Except.ok (w.json_command s c.1 argdict)

/-- Python `if outbuf: results.append(json.loads(outbuf)) else: results.append(None)`. -/
def decodeOut {S A J : Type} (w : RadosWorld S A J) (outbuf : String) :
    Except String (Option J) :=
  if outbuf ≠ "" then (w.loads outbuf).map some else Except.ok none

/-- The result dict of `rados_commands`. -/
structure BatchResult (J : Type) where
  error : Bool
  results : List (Option J)
  error_status : String
  versions : J
  fsid : String
deriving DecidableEq, Repr

/-- The `for i, (prefix, argdict) in enumerate(commands)` loop of
`rados_commands`: on `ret != 0` return the error dict (with the versions
snapshot taken now); on success decode the output, append, continue; when
the list is exhausted take the versions snapshot and return the success
dict. -/
def radosLoop {S A J : Type} (w : RadosWorld S A J) (fsid : String) :
    S → List (String × A) → List (Option J) → Except String (BatchResult J)
  | s, [], results =>
    match w.cluster_versions s with
    | Except.error e => Except.error e
    | Except.ok (v, _) => Except.ok ⟨false, results, "", v, fsid⟩
  | s, c :: cs, results =>
    match execOne w s c with
    | Except.error e => Except.error e
    | Except.ok (o, s1) =>
      if o.1 ≠ 0 then
        match w.cluster_versions s1 with
        | Except.error e => Except.error e
        | Except.ok (v, _) => Except.ok ⟨true, results, o.2.2, v, fsid⟩
      else
        match decodeOut w o.2.1 with
        | Except.error e => Except.error e
        | Except.ok r => radosLoop w fsid s1 cs (results ++ [r])

/-- Source `rados_commands(fsid, cluster_name, commands)` (lines 286-338), from
the point where the cluster handle is open. -/
def rados_commands {S A J : Type} (w : RadosWorld S A J)
    (fsid cluster_name : String) (s : S) (commands : List (String × A)) :
    Except String (BatchResult J) :=
  radosLoop w fsid s commands []

/-- The sequence of (status, outbuf, outs) outcomes, with post-states,
that the loop actually produces: it stops after the first nonzero status
(and is cut short by a raise). -/
def stepTrace {S A J : Type} (w : RadosWorld S A J) :
    S → List (String × A) → List ((Int × String × String) × S)
  | _, [] => []
  | s, c :: cs =>
    match execOne w s c with
    | Except.error _ => []
    | Except.ok (o, s1) => (o, s1) :: (if o.1 = 0 then stepTrace w s1 cs else [])

/-- Decoding of the outbufs of a trace, in order. -/
def decodeAll {S A J : Type} (w : RadosWorld S A J) :
    List ((Int × String × String) × S) → Except String (List (Option J))
  | [] => Except.ok []
  | p :: ps =>
    match decodeOut w p.1.2.1 with
    | Except.error e => Except.error e
    | Except.ok r =>
      match decodeAll w ps with
      | Except.error e => Except.error e
      | Except.ok rs => Except.ok (r :: rs)

theorem radosLoop_fail {S A J : Type} (w : RadosWorld S A J) (fsid : String) :
    ∀ (commands : List (String × A)) (s : S) (acc : List (Option J))
      (pre : List ((Int × String × String) × S)) (f : Int × String × String)
      (sf : S) (outs : List (Option J)) (v : J) (s2 : S),
      stepTrace w s commands = pre ++ [(f, sf)] →
      (∀ p ∈ pre, p.1.1 = 0) → f.1 ≠ 0 →
      decodeAll w pre = Except.ok outs →
      w.cluster_versions sf = Except.ok (v, s2) →
      radosLoop w fsid s commands acc =
        Except.ok ⟨true, acc ++ outs, f.2.2, v, fsid⟩ := by
  intro commands
  induction commands with
  | nil =>
    intro s acc pre f sf outs v s2 htr hpre hf hdec hv
    simp [stepTrace] at htr
  | cons c cs ih =>
    intro s acc pre f sf outs v s2 htr hpre hf hdec hv
    simp only [stepTrace] at htr
    cases he : execOne w s c with
    | error e =>
      simp only [he] at htr
      simp at htr
    | ok os =>
      obtain ⟨o, s1⟩ := os
      simp only [he] at htr
      by_cases ho : o.1 = 0
      · rw [if_pos ho] at htr
        cases pre with
        | nil =>
          simp only [List.nil_append, List.cons.injEq] at htr
          have hfo : f = o := (congrArg Prod.fst htr.1).symm
          rw [hfo] at hf
          exact absurd ho hf
        | cons q pre2 =>
          simp only [List.cons_append, List.cons.injEq] at htr
          obtain ⟨hq, htr2⟩ := htr
          simp only [decodeAll] at hdec
          cases hd1 : decodeOut w q.1.2.1 with
          | error e => rw [hd1] at hdec; simp at hdec
          | ok r =>
            rw [hd1] at hdec
            cases hd2 : decodeAll w pre2 with
            | error e => rw [hd2] at hdec; simp at hdec
            | ok rs =>
              rw [hd2] at hdec
              simp only [Except.ok.injEq] at hdec
              have hq1 : decodeOut w o.2.1 = Except.ok r := by
                rw [← hq] at hd1
                exact hd1
              simp only [radosLoop, he, if_neg (by simp [ho] : ¬ o.1 ≠ 0), hq1]
              have := ih s1 (acc ++ [r]) pre2 f sf rs v s2 htr2
                (fun p hp => hpre p (List.mem_cons_of_mem _ hp)) hf hd2 hv
              rw [this, ← hdec]
              simp
      · rw [if_neg ho] at htr
        have hpre_nil : pre = [] ∧ (f, sf) = (o, s1) := by
          cases pre with
          | nil =>
            simp only [List.nil_append, List.cons.injEq] at htr
            exact ⟨rfl, htr.1.symm⟩
          | cons q pre2 =>
            simp only [List.cons_append, List.cons.injEq] at htr
            exact absurd htr.2 (by simp)
        obtain ⟨hp0, hfs⟩ := hpre_nil
        rw [hp0] at hdec
        simp only [decodeAll, Except.ok.injEq] at hdec
        have hfo : f = o := congrArg Prod.fst hfs
        have hso : sf = s1 := congrArg Prod.snd hfs
        simp only [radosLoop, he, if_pos (by simpa [hfo] using hf), ← hso, hv]
        rw [← hdec, hfo]
        simp

theorem radosLoop_success {S A J : Type} (w : RadosWorld S A J) (fsid : String) :
    ∀ (commands : List (String × A)) (s : S) (acc : List (Option J))
      (tr : List ((Int × String × String) × S)) (outs : List (Option J))
      (v : J) (s2 : S),
      stepTrace w s commands = tr →
      tr.length = commands.length →
      (∀ p ∈ tr, p.1.1 = 0) →
      decodeAll w tr = Except.ok outs →
      w.cluster_versions ((tr.getLast?).elim s Prod.snd) = Except.ok (v, s2) →
      radosLoop w fsid s commands acc =
        Except.ok ⟨false, acc ++ outs, "", v, fsid⟩ := by
  intro commands
  induction commands with
  | nil =>
    intro s acc tr outs v s2 htr hlen hall hdec hv
    simp only [stepTrace] at htr
    rw [← htr] at hdec hv
    simp only [decodeAll, Except.ok.injEq] at hdec
    simp only [List.getLast?, Option.elim] at hv
    simp only [radosLoop, hv]
    rw [← hdec]
    simp
  | cons c cs ih =>
    intro s acc tr outs v s2 htr hlen hall hdec hv
    simp only [stepTrace] at htr
    cases he : execOne w s c with
    | error e =>
      simp only [he] at htr
      rw [← htr] at hlen
      simp at hlen
    | ok os =>
      obtain ⟨o, s1⟩ := os
      simp only [he] at htr
      by_cases ho : o.1 = 0
      · rw [if_pos ho] at htr
        cases tr with
        | nil => simp at htr
        | cons q tr2 =>
          simp only [List.cons.injEq] at htr
          obtain ⟨hq, htr2⟩ := htr
          simp only [decodeAll] at hdec
          cases hd1 : decodeOut w q.1.2.1 with
          | error e => rw [hd1] at hdec; simp at hdec
          | ok r =>
            rw [hd1] at hdec
            cases hd2 : decodeAll w tr2 with
            | error e => rw [hd2] at hdec; simp at hdec
            | ok rs =>
              rw [hd2] at hdec
              simp only [Except.ok.injEq] at hdec
              have hq1 : decodeOut w o.2.1 = Except.ok r := by
                rw [← hq] at hd1
                exact hd1
              simp only [radosLoop, he, if_neg (by simp [ho] : ¬ o.1 ≠ 0), hq1]
              have hlen2 : tr2.length = cs.length := by
                simpa using hlen
              have hv2 : w.cluster_versions ((tr2.getLast?).elim s1 Prod.snd) =
                  Except.ok (v, s2) := by
                cases htc : tr2 with
                | nil =>
                  rw [htc] at hv
                  simp only [List.getLast?, Option.elim] at hv
                  rw [← hq] at hv
                  simpa using hv
                | cons q2 tr3 =>
                  rw [htc] at hv
                  rw [List.getLast?_cons_cons] at hv
                  cases hgl : (q2 :: tr3).getLast? with
                  | none => simp [List.getLast?_eq_none_iff] at hgl
                  | some g =>
                    rw [hgl] at hv
                    exact hv
              have := ih s1 (acc ++ [r]) tr2 rs v s2 htr2 hlen2
                (fun p hp => hall p (List.mem_cons_of_mem _ hp)) hd2 hv2
              rw [this, ← hdec]
              simp
      · rw [if_neg ho] at htr
        have hmem : o.1 = 0 := by
          have : ((o, s1) : (Int × String × String) × S) ∈ tr := by
            rw [← htr]
            exact List.mem_cons_self _ _
          exact hall _ this
        exact absurd hmem ho

/-- Claim C3: `rados_commands` executes the batch strictly in the given
order; if some command's execution returns nonzero status (and all
earlier commands succeeded), the returned dict has `error = true`,
carries exactly the decoded outputs of the commands before the failure,
the failing command's error text `outs`, and a cluster-map versions
snapshot taken in the state reached after the partial batch; if every
command succeeds, the dict has `error = false`, all decoded outputs in
order, empty error text, and a versions snapshot taken after the full
batch. -/
theorem C3_rados_commands {S A J : Type} (w : RadosWorld S A J)
    (fsid cluster_name : String) (s : S) (commands : List (String × A)) :
    (∀ pre f sf outs v s2,
      stepTrace w s commands = pre ++ [(f, sf)] →
      (∀ p ∈ pre, p.1.1 = 0) → f.1 ≠ 0 →
      decodeAll w pre = Except.ok outs →
      w.cluster_versions sf = Except.ok (v, s2) →
      rados_commands w fsid cluster_name s commands =
        Except.ok ⟨true, outs, f.2.2, v, fsid⟩) ∧
    (∀ tr outs v s2,
      stepTrace w s commands = tr →
      tr.length = commands.length →
      (∀ p ∈ tr, p.1.1 = 0) →
      decodeAll w tr = Except.ok outs →
      w.cluster_versions ((tr.getLast?).elim s Prod.snd) = Except.ok (v, s2) →
      rados_commands w fsid cluster_name s commands =
        Except.ok ⟨false, outs, "", v, fsid⟩) := by
  constructor
  · intro pre f sf outs v s2 htr hpre hf hdec hv
    have := radosLoop_fail w fsid commands s [] pre f sf outs v s2 htr hpre hf hdec hv
    simpa [rados_commands] using this
  · intro tr outs v s2 htr hlen hall hdec hv
    have := radosLoop_success w fsid commands s [] tr outs v s2 htr hlen hall hdec hv
    simpa [rados_commands] using this

/-- A concrete world realizing the spec's `[cmdA(ok), cmdB(fails),
cmdC(ok)]` scenario: the state counts executed commands; the first
returns output "ra", the second fails with error text "berr", the third
would succeed but is never reached; the versions snapshot reads the
state. -/
def rwEx : RadosWorld Nat Unit String :=
  ⟨fun a => a, fun _ => "",
   fun s _ _ =>
     ((if s = 0 then (0, "ra", "")
       else if s = 1 then (1, "", "berr")
       else (0, "rc", "")), s + 1),
   fun s _ _ => ((0, "", ""), s + 1),
   fun s _ => ((0, "", ""), s + 1),
   fun s => Except.ok ((if s = 2 then "v2" else "v?"), s),
   fun str => Except.ok str⟩

theorem C3_rados_commands_witness :
    rados_commands rwEx "fsid" "ceph" 0 [("a", ()), ("b", ()), ("c", ())] =
      Except.ok ⟨true, [some "ra"], "berr", "v2", "fsid"⟩ :=
  (C3_rados_commands rwEx "fsid" "ceph" 0 [("a", ()), ("b", ()), ("c", ())]).1
    [((0, "ra", ""), 1)] (1, "", "berr") 2 [some "ra"] "v2" 2
    rfl (by decide) (by decide) rfl rfl

/-! ### The `MsgGenerator` job table (mon_remote.py 765-805) and the
`MonRemote.run_job` facade (866-874)

`_jobs` is the dict of running job ids; `uuid.uuid4()` is embedded as a
fresh counter — the spec's "opaque unique token", never previously
issued.  Emitted events carry their kind and, for RUNNING_JOBS, the list
of jids reported. -/

structure GenState where
  counter : Nat
  jobs : List Nat
deriving DecidableEq, Repr

/-- Source `MsgGenerator.run_job(fqdn, cmd, args)` (lines 799-805): raises
`Unavailable` when `fqdn != socket.getfqdn()`; otherwise allocates a
fresh jid, records the spawned job under it and returns it. -/
def msgRunJob (localFqdn : String) (s : GenState) (fqdn : String) :
    Except String (Nat × GenState) :=
  if fqdn ≠ localFqdn then Except.error "Unavailable"
  else Except.ok (s.counter, ⟨s.counter + 1, s.counter :: s.jobs⟩)

/-- Source `MsgGenerator.complete(jid, event)` (lines 792-794):
`del self._jobs[jid]` — a `KeyError` if the jid is absent — and only then
`self._emit(event)`; the completion event is emitted from the state in
which the jid is already removed. -/
def msgComplete (s : GenState) (jid : Nat) :
    Except String (GenState × (MsgKind × List Nat)) :=
  if jid ∈ s.jobs then
    Except.ok (⟨s.counter, s.jobs.erase jid⟩, (MsgKind.job, [jid]))
  else Except.error "KeyError"

/-- Source `MsgGenerator.running_jobs()` (lines 796-797): emits a RUNNING_JOBS
event listing exactly the jids currently in the table. -/
def msgRunningJobs (s : GenState) : MsgKind × List Nat :=
  (MsgKind.runningJobs, s.jobs)

inductive GenOp where
  | runJob (fqdn : String)
  | complete (jid : Nat)
  | report
deriving DecidableEq, Repr

/-- One step of the generator under the single cooperative scheduler: a
raised exception leaves the table unchanged and emits nothing. -/
def applyOp (localFqdn : String) (s : GenState) :
    GenOp → GenState × List (MsgKind × List Nat)
  | GenOp.runJob fqdn =>
    match msgRunJob localFqdn s fqdn with
    | Except.error _ => (s, [])
    | Except.ok (_, s1) => (s1, [])
  | GenOp.complete jid =>
    match msgComplete s jid with
    | Except.error _ => (s, [])
    | Except.ok (s1, ev) => (s1, [ev])
  | GenOp.report => (s, [msgRunningJobs s])

def runOps (localFqdn : String) : GenState → List GenOp →
    GenState × List (MsgKind × List Nat)
  | s, [] => (s, [])
  | s, op :: ops =>
    match applyOp localFqdn s op with
    | (s1, evs) =>
      match runOps localFqdn s1 ops with
      | (s2, evs2) => (s2, evs ++ evs2)

/-- Initial state of `MsgGenerator.__init__`: `self._jobs = {}`. -/
def genInit : GenState := ⟨0, []⟩

/-- Job-table invariant: jids are unique and below the allocator. -/
def GenInv (s : GenState) : Prop := s.jobs.Nodup ∧ ∀ j ∈ s.jobs, j < s.counter

theorem applyOp_inv (localFqdn : String) (s : GenState) (op : GenOp)
    (h : GenInv s) : GenInv (applyOp localFqdn s op).1 := by
  cases op with
  | runJob fqdn =>
    by_cases hf : fqdn = localFqdn
    · simp only [applyOp, msgRunJob, hf, ne_eq, not_true_eq_false, if_false]
      refine ⟨?_, ?_⟩
      · simp only [List.nodup_cons]
        exact ⟨fun hm => absurd (h.2 _ hm) (lt_irrefl _), h.1⟩
      · intro j hj
        simp only [List.mem_cons] at hj
        have hlt : j < s.counter + 1 := by
          rcases hj with hj | hj
          · omega
          · have := h.2 j hj
            omega
        exact hlt
    · simp only [applyOp, msgRunJob, ne_eq, hf, not_false_eq_true, if_true]
      exact h
  | complete jid =>
    by_cases hm : jid ∈ s.jobs
    · simp only [applyOp, msgComplete, if_pos hm]
      refine ⟨h.1.erase jid, ?_⟩
      intro j hj
      exact h.2 j (List.mem_of_mem_erase hj)
    · simp only [applyOp, msgComplete, if_neg hm]
      exact h
  | report => exact h

theorem applyOp_absent (localFqdn : String) (s : GenState) (op : GenOp) (j : Nat)
    (hj : j ∉ s.jobs) (hjc : j < s.counter) :
    j ∉ (applyOp localFqdn s op).1.jobs ∧ j < (applyOp localFqdn s op).1.counter ∧
    ∀ ev ∈ (applyOp localFqdn s op).2, ev.1 = MsgKind.runningJobs → j ∉ ev.2 := by
  cases op with
  | runJob fqdn =>
    by_cases hf : fqdn = localFqdn
    · simp only [applyOp, msgRunJob, hf, ne_eq, not_true_eq_false, if_false]
      refine ⟨?_, (by omega : j < s.counter + 1), by simp⟩
      simp only [List.mem_cons, not_or]
      exact ⟨by omega, hj⟩
    · simp only [applyOp, msgRunJob, ne_eq, hf, not_false_eq_true, if_true]
      exact ⟨hj, hjc, by simp⟩
  | complete jid =>
    by_cases hm : jid ∈ s.jobs
    · simp only [applyOp, msgComplete, if_pos hm]
      refine ⟨fun hh => hj (List.mem_of_mem_erase hh), hjc, ?_⟩
      intro ev hev hk
      simp only [List.mem_singleton] at hev
      rw [hev] at hk
      simp at hk
    · simp only [applyOp, msgComplete, if_neg hm]
      exact ⟨hj, hjc, by simp⟩
  | report =>
    refine ⟨hj, hjc, ?_⟩
    intro ev hev hk
    simp only [applyOp, List.mem_singleton] at hev
    rw [hev]
    exact hj

theorem runOps_absent (localFqdn : String) (ops : List GenOp) :
    ∀ (s : GenState) (j : Nat), j ∉ s.jobs → j < s.counter →
      j ∉ (runOps localFqdn s ops).1.jobs ∧
      ∀ ev ∈ (runOps localFqdn s ops).2, ev.1 = MsgKind.runningJobs → j ∉ ev.2 := by
  induction ops with
  | nil =>
    intro s j hj hjc
    exact ⟨hj, by simp [runOps]⟩
  | cons op rest ih =>
    intro s j hj hjc
    have h1 := applyOp_absent localFqdn s op j hj hjc
    have h2 := ih (applyOp localFqdn s op).1 j h1.1 h1.2.1
    simp only [runOps]
    refine ⟨h2.1, ?_⟩
    intro ev hev hk
    rcases List.mem_append.mp hev with hh | hh
    · exact h1.2.2 ev hh hk
    · exact h2.2 ev hh hk

theorem runOps_inv (localFqdn : String) (ops : List GenOp) :
    ∀ s, GenInv s → GenInv (runOps localFqdn s ops).1 := by
  induction ops with
  | nil =>
    intro s h
    exact h
  | cons op rest ih =>
    intro s h
    simp only [runOps]
    exact ih _ (applyOp_inv localFqdn s op h)

theorem runOps_append (localFqdn : String) (l1 l2 : List GenOp) :
    ∀ s, runOps localFqdn s (l1 ++ l2) =
      ((runOps localFqdn (runOps localFqdn s l1).1 l2).1,
       (runOps localFqdn s l1).2 ++ (runOps localFqdn (runOps localFqdn s l1).1 l2).2) := by
  induction l1 with
  | nil => intro s; simp [runOps]
  | cons op rest ih =>
    intro s
    simp only [List.cons_append, runOps, List.append_eq]
    rw [ih]
    simp [List.append_assoc]

/-- Claim C4: once a job's completion event has been emitted, its jid is
absent from the job table and from every subsequently emitted
RUNNING_JOBS report.  `complete` removes the jid from the table before
emitting — the state paired with the emitted completion event already
lacks the jid — and `running_jobs` reports only jids currently in the
table, so no later report can mention it (fresh allocation guarantees the
jid is never reissued). -/
theorem C4_complete_removes (localFqdn : String) (pre post : List GenOp) (j : Nat)
    (hj : j ∈ (runOps localFqdn genInit pre).1.jobs) :
    (∀ s1 ev, msgComplete (runOps localFqdn genInit pre).1 j = Except.ok (s1, ev) →
      j ∉ s1.jobs) ∧
    j ∉ (runOps localFqdn genInit (pre ++ [GenOp.complete j])).1.jobs ∧
    ∀ ev ∈ (runOps localFqdn
        (runOps localFqdn genInit (pre ++ [GenOp.complete j])).1 post).2,
      ev.1 = MsgKind.runningJobs → j ∉ ev.2 := by
  have hinv : GenInv (runOps localFqdn genInit pre).1 :=
    runOps_inv localFqdn pre genInit ⟨List.nodup_nil, by simp [genInit]⟩
  have hjc : j < (runOps localFqdn genInit pre).1.counter := hinv.2 j hj
  have herase : j ∉ ((runOps localFqdn genInit pre).1.jobs.erase j) :=
    hinv.1.not_mem_erase
  have hstep : (runOps localFqdn genInit (pre ++ [GenOp.complete j])).1 =
      ⟨(runOps localFqdn genInit pre).1.counter,
       (runOps localFqdn genInit pre).1.jobs.erase j⟩ := by
    rw [runOps_append]
    simp only [runOps, applyOp, msgComplete, if_pos hj]
  refine ⟨?_, ?_, ?_⟩
  · intro s1 ev hc
    rw [msgComplete, if_pos hj] at hc
    simp only [Except.ok.injEq, Prod.mk.injEq] at hc
    rw [← hc.1]
    exact herase
  · rw [hstep]
    exact herase
  · have := runOps_absent localFqdn post
      (runOps localFqdn genInit (pre ++ [GenOp.complete j])).1 j
      (by rw [hstep]; exact herase) (by rw [hstep]; exact hjc)
    exact this.2

theorem C4_complete_removes_witness :
    (∀ s1 ev, msgComplete (runOps "h" genInit [GenOp.runJob "h"]).1 0 =
        Except.ok (s1, ev) → (0 : Nat) ∉ s1.jobs) ∧
    (0 : Nat) ∉ (runOps "h" genInit ([GenOp.runJob "h"] ++ [GenOp.complete 0])).1.jobs ∧
    ∀ ev ∈ (runOps "h"
        (runOps "h" genInit ([GenOp.runJob "h"] ++ [GenOp.complete 0])).1
        [GenOp.report]).2,
      ev.1 = MsgKind.runningJobs → (0 : Nat) ∉ ev.2 :=
  C4_complete_removes "h" [GenOp.runJob "h"] [GenOp.report] 0 (by decide)

/-- Source `MonRemote.run_job(fqdn, cmd, args)` (lines 866-874): dereference the
weak reference to the process-wide generator; if it is dead (`None`) the
function falls through and implicitly returns `None`, starting nothing;
otherwise it delegates to `MsgGenerator.run_job` (whose `Unavailable`
propagates).  The second component is the generator state afterwards
(`none` when no generator is alive). -/
def monRemoteRunJob (genRef : Option GenState) (localFqdn fqdn : String) :
    Except String (Option Nat × Option GenState) :=
  match genRef with
  | none => Except.ok (none, none)
  | some g =>
    match msgRunJob localFqdn g fqdn with
    | Except.error e => Except.error e
    | Except.ok (jid, g1) => Except.ok (some jid, some g1)

/-- Claim C10: when the facade's weak reference resolves to `None` (the
bus object has been garbage-collected), `MonRemote.run_job` returns
`None` instead of a job id, raises no error, and starts no job. -/
theorem C10_run_job_dead_ref (localFqdn fqdn : String) :
    monRemoteRunJob none localFqdn fqdn = Except.ok (none, none) := rfl

/-! ### `MonRemote.listen` (mon_remote.py 952-992)

The queue is the list of successive outcomes of
`self._events.get(timeout=1)` observed until the completion signal is
seen: `none` for an `Empty` timeout, `some ev` for a delivered event.
Handlers are caller-supplied and may raise (`Except.error`). -/

structure ListenHandlers (J : Type) where
  on_heartbeat : Option (String → J → Except String Unit)
  on_job : Option (String → String → Bool → Sum String J → String → J → Except String Unit)
  on_server_heartbeat : Option (String → J → Except String Unit)
  on_running_jobs : Option (String → J → Except String Unit)

inductive ListenEvent (J : Type) where
  | heartbeat (data : List (String × J))
  | job (d : JobEventData J)
  | serverHeartbeat (data : J)
  | runningJobs (data : J)

/-- The dispatch chain of the loop body (lines 976-989): HEARTBEAT data
must additionally be truthy (non-empty) and is iterated per cluster;
an event kind with no registered handler is ignored. -/
def dispatchEvent {J : Type} (h : ListenHandlers J) (fqdn : String) :
    ListenEvent J → Except String Unit
  | ListenEvent.heartbeat data =>
    match h.on_heartbeat with
    | some f =>
      if data.isEmpty then Except.ok () else data.foldlM (fun _ p => f fqdn p.2) ()
    | none => Except.ok ()
  | ListenEvent.job d =>
    match h.on_job with
    | some f => f d.id d.jid d.success d.ret d.fn d.fn_args
    | none => Except.ok ()
  | ListenEvent.serverHeartbeat data =>
    match h.on_server_heartbeat with
    | some f => f fqdn data
    | none => Except.ok ()
  | ListenEvent.runningJobs data =>
    match h.on_running_jobs with
    | some f => f fqdn data
    | none => Except.ok ()

/-- The `while not completion.is_set()` loop with the trailing
`self.subscribed -= 1`: an `Empty` timeout is passed over; a handler
exception propagates out of `listen`, skipping the decrement (the source
has no try/finally).  Returns the final `subscribed` value and the
escaped exception, if any. -/
def listenLoop {J : Type} (h : ListenHandlers J) (fqdn : String) :
    Int → List (Option (ListenEvent J)) → Int × Option String
  | subscribed, [] => (subscribed - 1, none)
  | subscribed, item :: rest =>
    match item with
    | none => listenLoop h fqdn subscribed rest
    | some ev =>
      match dispatchEvent h fqdn ev with
      | Except.ok _ => listenLoop h fqdn subscribed rest
      | Except.error e => (subscribed, some e)

/-- Source `MonRemote.listen` (lines 952-992): `self.subscribed += 1` on entry,
then the loop. -/
def listen {J : Type} (h : ListenHandlers J) (fqdn : String) (subscribed : Int)
    (queue : List (Option (ListenEvent J))) : Int × Option String :=
  listenLoop h fqdn (subscribed + 1) queue

/-- Handlers whose server-heartbeat callback raises. -/
def lhEx : ListenHandlers String :=
  ⟨none, none, some (fun _ _ => Except.error "boom"), none⟩

/-- Claim C5, as stated, is false: `listen` has no try/finally, so when a
caller-supplied handler raises, the call exits with the interest count
still incremented.  Concretely: entering with `subscribed = 0` and a
queue delivering one SERVER_HEARTBEAT event to a raising handler leaves
`subscribed = 1`, not 0. -/
theorem C5_counterexample_listen :
    (listen lhEx "h" 0 [some (ListenEvent.serverHeartbeat "x")]).1 ≠ 0 := by
  decide

theorem listenLoop_cases {J : Type} (h : ListenHandlers J) (fqdn : String) :
    ∀ (queue : List (Option (ListenEvent J))) (m : Int),
      ((listenLoop h fqdn m queue).2 = none → (listenLoop h fqdn m queue).1 = m - 1) ∧
      (∀ e, (listenLoop h fqdn m queue).2 = some e →
        (listenLoop h fqdn m queue).1 = m) := by
  intro queue
  induction queue with
  | nil =>
    intro m
    simp [listenLoop]
  | cons item rest ih =>
    intro m
    cases item with
    | none => simpa [listenLoop] using ih m
    | some ev =>
      cases hd : dispatchEvent h fqdn ev with
      | ok u => simpa [listenLoop, hd] using ih m
      | error e => simp [listenLoop, hd]

/-- Claim C5 (amended): on normal exit (no handler exception) the
interest count on exit equals its value before the call — incremented on
entry, decremented after the loop; but when the call exits via an
exception raised by a caller-supplied handler, the decrement is skipped
and the count remains one higher than before the call. -/
theorem C5_listen_interest {J : Type} (h : ListenHandlers J) (fqdn : String)
    (n : Int) (queue : List (Option (ListenEvent J))) :
    ((listen h fqdn n queue).2 = none → (listen h fqdn n queue).1 = n) ∧
    (∀ e, (listen h fqdn n queue).2 = some e → (listen h fqdn n queue).1 = n + 1) := by
  have hc := listenLoop_cases h fqdn queue (n + 1)
  refine ⟨fun hn => ?_, fun e he => ?_⟩
  · have := hc.1 hn
    simp only [listen] at this ⊢
    omega
  · exact hc.2 e he

theorem C5_listen_interest_witness :
    (listen lhEx "h" 0 [none]).1 = 0 ∧
    (listen lhEx "h" 0 [some (ListenEvent.serverHeartbeat "x")]).1 = 0 + 1 :=
  ⟨(C5_listen_interest lhEx "h" 0 [none]).1 rfl,
   (C5_listen_interest lhEx "h" 0 [some (ListenEvent.serverHeartbeat "x")]).2 "boom" rfl⟩

/-! ### The OSD metadata loop of `get_cluster_object` (mon_remote.py 472-485) -/

/-- An entry of `data[osds]`, carrying the field the loop reads. -/
structure OsdEntry where
  osd : Nat
deriving DecidableEq, Repr

/-- Loop `for osd_entry in data[osds]` (lines 474-485): per entry, one
`osd metadata` query, modelled as a pure oracle from osd id to
`(status, payload)`; on `ret == 0` the payload is decoded
(`json.loads`, which may raise), tagged with the osd id
(`updated_osd_metadata[osd] = osd_id`, modelled by `setOsd`) and
appended; on nonzero status the entry is skipped with no error. -/
def osd_metadata_loop {J : Type} (query : Nat → Int × String)
    (loads : String → Except String J) (setOsd : J → Nat → J) :
    List OsdEntry → Except String (List J)
  | [] => Except.ok []
  | e :: rest =>
    match query e.osd with
    | (ret, raw) =>
      if ret = 0 then
        match loads raw with
        | Except.error err => Except.error err
        | Except.ok m =>
          match osd_metadata_loop query loads setOsd rest with
          | Except.error err => Except.error err
          | Except.ok ms => Except.ok (setOsd m e.osd :: ms)
      else osd_metadata_loop query loads setOsd rest

/-- Claim C7: when the per-entry metadata query fails (nonzero status)
for any subset of the OSD entries, the fetch still returns successfully
(`Except.ok`, no error surfaced for the failed entries), and the
resulting `osd_metadata` list contains, in order, metadata entries for
exactly the OSD entries whose query succeeded. -/
theorem C7_osd_metadata {J : Type} (query : Nat → Int × String)
    (loads : String → Except String J) (setOsd : J → Nat → J)
    (entries : List OsdEntry)
    (hparse : ∀ e ∈ entries, (query e.osd).1 = 0 →
      ∃ m, loads (query e.osd).2 = Except.ok m) :
    osd_metadata_loop query loads setOsd entries =
      Except.ok (entries.filterMap (fun e =>
        if (query e.osd).1 = 0
        then ((loads (query e.osd).2).toOption).map (fun m => setOsd m e.osd)
        else none)) := by
  induction entries with
  | nil => rfl
  | cons e rest ih =>
    have hrest := ih (fun x hx => hparse x (List.mem_cons_of_mem _ hx))
    cases hq : query e.osd with
    | mk ret raw =>
      by_cases hr : ret = 0
      · obtain ⟨m, hm⟩ := hparse e (List.mem_cons_self _ _) (by rw [hq]; exact hr)
        rw [hq] at hm
        simp only [osd_metadata_loop, hq, if_pos hr, hm, hrest, List.filterMap_cons]
        simp [hq, hr, hm, Except.toOption]
      · simp [osd_metadata_loop, hq, hr, hrest]

/-- The spec scenario: three OSD entries, the middle query fails. -/
def qEx : Nat → Int × String :=
  fun n => if n = 2 then (1, "") else (0, "m")

theorem C7_osd_metadata_witness :
    osd_metadata_loop qEx (fun _ => Except.ok 0) (fun _ n => n) [⟨1⟩, ⟨2⟩, ⟨3⟩] =
      Except.ok [1, 3] := by
  have h := C7_osd_metadata qEx (fun _ => Except.ok (0 : Nat)) (fun _ n => n)
    [⟨1⟩, ⟨2⟩, ⟨3⟩] (fun e he hq => ⟨0, rfl⟩)
  rw [h]
  rfl

end Calamari
